import Mathlib

/-!
# Verification of the corpus cleaning-and-encoding pipeline

A shallow embedding of the cleaning/encoding pipeline:
* `book_cleaner.py` : `is_roman`, `clean_sents`, `get_vocabulary`
* `onehot.py`       : the `OneHot` constructor and positional statistics

Strings are modelled by Lean `String` (ASCII behaviour of Python's
`str.lower`, `str.isdigit`, `str.strip`); the external part-of-speech
tagger (`nltk.pos_tag`) is a parameter `tag`; the NumPy tensor writes are
modelled as the list of written cells (every write stores 1 into an array
of zeros, so a cell's final value is 1 iff it was written); Python
exceptions (`KeyError`, `IndexError`) are modelled with `Except`.
-/

/-- The punctuation set `PUNCT` of `book_cleaner.py`:
the characters of the Python string `" \x60!@#$%^&*()_-+=[]|;:<>,.?/\x7b\\\x7d"` (without the space). -/
def PUNCT : List Char :=
  ['\x60', '!', '@', '#', '$', '%', '^', '&', '*', '(', ')', '_', '-', '+', '=',
   '[', ']', '|', ';', ':', '<', '>', ',', '.', '?', '/', '\x7b', '\\', '\x7d']

/-- The characters stripped from word ends: `"_" + "".join(PUNCT)`. -/
def STRIP : List Char := '_' :: PUNCT

/-- Python `word.strip(chars)`: remove leading and trailing characters
belonging to `cs`. -/
def pyStrip (cs : List Char) (s : String) : String :=
  String.mk (((s.data.dropWhile (fun c => cs.contains c)).reverse.dropWhile
    (fun c => cs.contains c)).reverse)

/-- Python `str.lower()` (ASCII): lower-case every character. -/
def strLower (s : String) : String :=
  String.mk (s.data.map Char.toLower)

/-- Python `word.isdigit()` (ASCII): nonempty and every character a digit. -/
def isdigitStr (s : String) : Bool :=
  !s.data.isEmpty && s.data.all Char.isDigit

/-- `re.search(r"[A-Za-z0-9]", word)`: the word contains an alphanumeric
character. -/
def hasAlnum (s : String) : Bool :=
  s.data.any (fun c => c.isAlpha || c.isDigit)

/-- Python `word in PUNCT`: the word is one of the single-character
punctuation strings. -/
def isPunctStr (w : String) : Bool :=
  PUNCT.any (fun c => w == String.mk [c])

/-- Matches of the regex group `M{0,3}`. -/
def romanM : List (List Char) := [[], ['M'], ['M', 'M'], ['M', 'M', 'M']]

/-- Matches of the regex group `(CM|CD|D?C{0,3})?`. -/
def romanC : List (List Char) :=
  [[], ['C', 'M'], ['C', 'D'], ['D'], ['C'], ['C', 'C'], ['C', 'C', 'C'],
   ['D', 'C'], ['D', 'C', 'C'], ['D', 'C', 'C', 'C']]

/-- Matches of the regex group `(XC|XL|L?X{0,3})?`. -/
def romanX : List (List Char) :=
  [[], ['X', 'C'], ['X', 'L'], ['L'], ['X'], ['X', 'X'], ['X', 'X', 'X'],
   ['L', 'X'], ['L', 'X', 'X'], ['L', 'X', 'X', 'X']]

/-- Matches of the regex group `(IX|IV|V?I{0,3})?`. -/
def romanI : List (List Char) :=
  [[], ['I', 'X'], ['I', 'V'], ['V'], ['I'], ['I', 'I'], ['I', 'I', 'I'],
   ['V', 'I'], ['V', 'I', 'I'], ['V', 'I', 'I', 'I']]

/-- One matching step: all remainders obtained from a remainder in `rs` by
consuming one alternative of the group `parts`. -/
def chomp (parts : List (List Char)) (rs : List (List Char)) : List (List Char) :=
  rs.flatMap (fun r => parts.filterMap
    (fun p => if p.isPrefixOf r then some (r.drop p.length) else none))

/-- `is_roman` of `book_cleaner.py`: full anchored match of
`^M{0,3}(CM|CD|D?C{0,3})?(XC|XL|L?X{0,3})?(IX|IV|V?I{0,3})?$` with
`re.IGNORECASE`, modelled by upper-casing the word and asking whether the
empty remainder is reachable after the four groups. -/
def is_roman (w : String) : Bool :=
  (chomp romanI (chomp romanX (chomp romanC
    (chomp romanM [w.data.map Char.toUpper])))).contains []

/-- One token of the per-token normalization loop of `clean_sents`
(lines 120-137 of `book_cleaner.py`): given the `(word, PoS)` pair,
return the normalized token, or `none` when the token is dropped. -/
def normToken (wp : String × String) : Option String :=
  if !hasAlnum wp.1 then none
  else if isdigitStr wp.1 then none
  else if decide (1 < wp.1.length) && is_roman wp.1 then none
  else if isPunctStr wp.1 then none
  else if wp.2 == "NNP" then some wp.1
  else
    let w := strLower (pyStrip STRIP wp.1)
    if w == "" then none
    else if w.length == 1 && !(w == "a" || w == "i") then none
    else some w

/-- The whole normalization loop: the cleaned token list of a tagged
sentence. -/
def normalizeTagged (tagged : List (String × String)) : List String :=
  tagged.filterMap normToken

/-- The chapter-number heading test of `clean_sents` (lines 112-117):
the first case-insensitive occurrence of `chapter` is immediately followed
by an all-digit token or a token matching the Roman-numeral regex. -/
def chapterHeading (sent : List String) : Bool :=
  let lowered := sent.map strLower
  if lowered.contains "chapter" then
    let i := List.indexOf "chapter" lowered
    if i + 1 < sent.length then
      isdigitStr (sent.getD (i + 1) "") || is_roman (sent.getD (i + 1) "")
    else false
  else false

/-- The body of the `for sent in filtered` loop of `clean_sents`:
`none` when the sentence is discarded (literal `CHAPTER`, chapter-number
heading, or cleaned length out of bounds), otherwise the cleaned
sentence.  `tag` is the external part-of-speech tagger. -/
def processSent (tag : List String → List (String × String)) (mn mx : Nat)
    (sent : List String) : Option (List String) :=
  if sent.any (fun t => t == "CHAPTER") then none
  else if chapterHeading sent then none
  else if mn ≤ (normalizeTagged (tag sent)).length ∧
           (normalizeTagged (tag sent)).length ≤ mx
    then some (normalizeTagged (tag sent)) else none

/-- `clean_sents` of `book_cleaner.py`: pre-filter by raw length into
`[min, max+1]`, then process each surviving sentence. -/
def clean_sents (tag : List String → List (String × String))
    (sentences : List (List String)) (mn mx : Nat) : List (List String) :=
  (sentences.filter (fun s => decide (mn ≤ s.length ∧ s.length ≤ mx + 1))).filterMap
    (processSent tag mn mx)

/-- Lexicographic order on character lists, by code point: the string
comparison Python's `sorted` uses. -/
def lexLe : List Char → List Char → Bool
  | [], _ => true
  | _ :: _, [] => false
  | a :: as, b :: bs => if a < b then true else if a = b then lexLe as bs else false

/-- Lexicographic order on strings, as a relation. -/
def strle (a b : String) : Prop := lexLe a.data b.data = true

instance : DecidableRel strle := fun a b => instDecidableEqBool (lexLe a.data b.data) true

/-- `get_vocabulary` of `book_cleaner.py`: the set of tokens of the
cleaned book together with `GAP`, returned sorted (Python
`sorted(vocab)`); modelled as sorting the duplicate-free token list. -/
def get_vocabulary (cleaned_book : List (List String)) : List String :=
  List.insertionSort strle (("GAP" :: cleaned_book.flatMap id).dedup)

/-- The exceptions the `OneHot` constructor can raise: a dictionary
lookup failure (`KeyError`, carrying the offending token) or an
out-of-range tensor write (`IndexError`, carrying the offending
position). -/
inductive OneHotErr where
  | keyError : String → OneHotErr
  | indexError : Nat → OneHotErr
deriving DecidableEq

/-- The dictionary `word2idx = \x7bw: i for i, w in enumerate(vocabulary)\x7d`
of `onehot.py`: the index of the last occurrence of `w` in `vocabulary`
(later assignments overwrite earlier ones), `none` when absent
(a lookup then raises `KeyError`). -/
def word2idx (vocab : List String) (w : String) : Option Nat :=
  if vocab.contains w then some (vocab.length - 1 - List.indexOf w vocab.reverse)
  else none

/-- The inner loop `for j, word in enumerate(sent)` of the `OneHot`
constructor, started at position `j`: the cells `(i, j, k)` written for
the tokens of the sentence.  A missing token raises `KeyError`; a write
at a position `≥ L` raises `IndexError` (the tensor's second axis has
extent `L`). -/
def tokenWrites (vocab : List String) (L i : Nat) :
    List String → Nat → Except OneHotErr (List (Nat × Nat × Nat))
  | [], _ => .ok []
  | w :: ws, j =>
    match word2idx vocab w with
    | none => .error (.keyError w)
    | some k =>
      if j < L then
        match tokenWrites vocab L i ws (j + 1) with
        | .error e => .error e
        | .ok rest => .ok ((i, j, k) :: rest)
      else .error (.indexError j)

/-- The padding loop `for j in range(len(sent), self.L)`: the cells
`(i, j, gap_idx)` written for the padding region. -/
def padWrites (g L i len : Nat) : List (Nat × Nat × Nat) :=
  (List.range' len (L - len)).map (fun j => (i, j, g))

/-- One iteration of the outer loop of the `OneHot` constructor: the
cells written for sentence `i` — its token cells, then (after the
`GAP` lookup) its padding cells. -/
def sentWrites (vocab : List String) (L i : Nat) (sent : List String) :
    Except OneHotErr (List (Nat × Nat × Nat)) :=
  match tokenWrites vocab L i sent 0 with
  | .error e => .error e
  | .ok tw =>
    match word2idx vocab "GAP" with
    | none => .error (.keyError "GAP")
    | some g => .ok (tw ++ padWrites g L i sent.length)

/-- The whole constructor loop of `OneHot.__init__`, starting at
sentence index `i`: all cells written into the `N × L × V` zero tensor,
or the first exception raised. -/
def buildWrites (vocab : List String) (L : Nat) :
    List (List String) → Nat → Except OneHotErr (List (Nat × Nat × Nat))
  | [], _ => .ok []
  | s :: ss, i =>
    match sentWrites vocab L i s with
    | .error e => .error e
    | .ok w =>
      match buildWrites vocab L ss (i + 1) with
      | .error e => .error e
      | .ok rest => .ok (w ++ rest)

/-- The tensor determined by a list of written cells: every write stores
1 into an array initialized with zeros, so a cell holds 1 iff it was
written. -/
def tensorOf (writes : List (Nat × Nat × Nat)) (i j k : Nat) : Nat :=
  if (i, j, k) ∈ writes then 1 else 0

/-- `OneHot.position_marginals` (through `partition_by_position` and the
row-major flattening `onehot_flat[i, j*V+k] = one_hot[i,j,k]`): the mean
over the `N` sentences of the indicator at `(position j, vocab index k)`. -/
def marginalAt (t : Nat → Nat → Nat → Nat) (N j k : Nat) : ℚ :=
  (∑ i ∈ Finset.range N, (t i j k : ℚ)) / N

/-- The entropy of `OneHot.position_dimensionality`:
`-np.sum(p * np.log2(p + 1e-5))`, over the real numbers. -/
noncomputable def entropyAt (p : Nat → ℚ) (V : Nat) : ℝ :=
  -∑ k ∈ Finset.range V, (p k : ℝ) * Real.logb 2 ((p k : ℝ) + 1e-5)

/-- The dimensionality of `OneHot.position_dimensionality`:
`2**entropy`. -/
noncomputable def dimensionalityAt (p : Nat → ℚ) (V : Nat) : ℝ :=
  (2 : ℝ) ^ entropyAt p V

/-- The chapter-heading rejection condition as the specification words
it (claim C3): some token equals the literal `CHAPTER`, or *a* token
case-insensitively equal to `chapter` is immediately followed by an
all-digit token or a Roman numeral of length strictly greater than 1. -/
def claimChapterReject (sent : List String) : Bool :=
  sent.any (fun t => t == "CHAPTER") ||
  (List.range sent.length).any (fun i =>
    strLower (sent.getD i "") == "chapter" && decide (i + 1 < sent.length) &&
    (isdigitStr (sent.getD (i + 1) "") ||
     (decide (1 < (sent.getD (i + 1) "").length) && is_roman (sent.getD (i + 1) ""))))

/-- A part-of-speech tagger stub that tags every token as a common noun
(used to instantiate theorems at concrete inputs). -/
def tagNN : List String → List (String × String) :=
  fun s => s.map (fun w => (w, "NN"))

/-- A part-of-speech tagger stub that tags every token as a singular
proper noun. -/
def tagNNP : List String → List (String × String) :=
  fun s => s.map (fun w => (w, "NNP"))

/-- The cell pattern the constructor is meant to produce for a sentence
row: a token indicator below the sentence length, the `GAP` indicator in
the padding region `[length, L)`. -/
def cellSpec (vocab : List String) (L : Nat) (sent : List String) (b k : Nat) : Prop :=
  (b < sent.length ∧ word2idx vocab (sent.getD b "") = some k) ∨
  (sent.length ≤ b ∧ b < L ∧ word2idx vocab "GAP" = some k)

lemma word2idx_lt {vocab : List String} {w : String} {k : Nat}
    (h : word2idx vocab w = some k) : k < vocab.length := by
  unfold word2idx at h
  split at h
  · rename_i hc
    have hm : w ∈ vocab := by simpa using hc
    have hpos : 0 < vocab.length := List.length_pos.mpr (List.ne_nil_of_mem hm)
    have hk : vocab.length - 1 - List.indexOf w vocab.reverse = k := by
      injection h
    omega
  · exact absurd h (by simp)

lemma word2idx_isSome {vocab : List String} {w : String} (h : w ∈ vocab) :
    ∃ k, word2idx vocab w = some k := by
  unfold word2idx
  rw [if_pos (by simpa using h)]
  exact ⟨_, rfl⟩

lemma word2idx_none {vocab : List String} {w : String} (h : w ∉ vocab) :
    word2idx vocab w = none := by
  unfold word2idx
  rw [if_neg (by simpa using h)]

lemma word2idx_none_iff {vocab : List String} {w : String} :
    word2idx vocab w = none ↔ w ∉ vocab := by
  constructor
  · intro h hm
    obtain ⟨k, hk⟩ := word2idx_isSome hm
    rw [h] at hk
    exact absurd hk (by simp)
  · exact word2idx_none

lemma mem_padWrites {g L i len a b k : Nat} :
    (a, b, k) ∈ padWrites g L i len ↔ a = i ∧ len ≤ b ∧ b < L ∧ k = g := by
  simp only [padWrites, List.mem_map, List.mem_range', Prod.mk.injEq]
  constructor
  · rintro ⟨j, ⟨t, ht, rfl⟩, rfl, rfl, rfl⟩
    omega
  · rintro ⟨rfl, h1, h2, rfl⟩
    exact ⟨b, ⟨b - len, by omega⟩, rfl, rfl, rfl⟩

lemma tokenWrites_ok {vocab : List String} {L i : Nat} :
    ∀ (sent : List String) (j₀ : Nat), (∀ w ∈ sent, w ∈ vocab) →
      j₀ + sent.length ≤ L →
      ∃ W, tokenWrites vocab L i sent j₀ = .ok W ∧
        ∀ a b k, ((a, b, k) ∈ W ↔
          a = i ∧ ∃ t, t < sent.length ∧ b = j₀ + t ∧
            word2idx vocab (sent.getD t "") = some k)
  | [], j₀, _, _ => by
    refine ⟨[], rfl, fun a b k => ?_⟩
    simp
  | w :: ws, j₀, hmem, hfit => by
    obtain ⟨k₀, hk₀⟩ := word2idx_isSome (hmem w (by simp))
    obtain ⟨W', hW', hchar⟩ :=
      @tokenWrites_ok vocab L i ws (j₀ + 1)
        (fun x hx => hmem x (by simp [hx]))
        (show j₀ + 1 + ws.length ≤ L by simp at hfit; omega)
    refine ⟨(i, j₀, k₀) :: W', ?_, ?_⟩
    · simp only [tokenWrites, hk₀]
      rw [if_pos (show j₀ < L by simp at hfit; omega), hW']
    · intro a b k
      rw [List.mem_cons, hchar a b k, Prod.mk.injEq, Prod.mk.injEq]
      constructor
      · rintro (⟨rfl, rfl, rfl⟩ | ⟨rfl, t, ht, rfl, hw⟩)
        · exact ⟨rfl, 0, by simpa using hk₀⟩
        · exact ⟨rfl, t + 1, by simpa using ht, by omega, by simpa using hw⟩
      · rintro ⟨rfl, t, ht, rfl, hw⟩
        cases t with
        | zero => simp only [List.getD] at hw
                  left
                  simp at hw
                  rw [hk₀] at hw
                  simp at hw
                  simp [hw]
        | succ t =>
          right
          refine ⟨rfl, t, ?_, by omega, by simpa using hw⟩
          simp only [List.length_cons] at ht
          omega

lemma sentWrites_ok {vocab : List String} {L i : Nat} {sent : List String}
    (hmem : ∀ w ∈ sent, w ∈ vocab) (hgap : "GAP" ∈ vocab)
    (hlen : sent.length ≤ L) :
    ∃ W, sentWrites vocab L i sent = .ok W ∧
      ∀ a b k, ((a, b, k) ∈ W ↔ a = i ∧ cellSpec vocab L sent b k) := by
  obtain ⟨W, hW, hchar⟩ :=
    @tokenWrites_ok vocab L i sent 0 hmem (by omega)
  obtain ⟨g, hg⟩ := word2idx_isSome hgap
  refine ⟨W ++ padWrites g L i sent.length, ?_, ?_⟩
  · unfold sentWrites
    rw [hW, hg]
  · intro a b k
    rw [List.mem_append, hchar a b k, mem_padWrites, cellSpec]
    constructor
    · rintro (⟨rfl, t, ht, rfl, hw⟩ | ⟨rfl, h1, h2, rfl⟩)
      · exact ⟨rfl, Or.inl ⟨by omega, by simpa using hw⟩⟩
      · exact ⟨rfl, Or.inr ⟨h1, h2, hg⟩⟩
    · rintro ⟨rfl, ⟨h1, hw⟩ | ⟨h1, h2, hw⟩⟩
      · exact Or.inl ⟨rfl, b, h1, by omega, hw⟩
      · refine Or.inr ⟨rfl, h1, h2, ?_⟩
        rw [hg] at hw
        exact (Option.some.inj hw).symm

lemma buildWrites_ok {vocab : List String} {L : Nat} :
    ∀ (ss : List (List String)) (i₀ : Nat),
      (∀ s ∈ ss, ∀ w ∈ s, w ∈ vocab) → "GAP" ∈ vocab →
      (∀ s ∈ ss, s.length ≤ L) →
      ∃ W, buildWrites vocab L ss i₀ = .ok W ∧
        ∀ a b k, ((a, b, k) ∈ W ↔
          ∃ t, t < ss.length ∧ a = i₀ + t ∧ cellSpec vocab L (ss.getD t []) b k)
  | [], i₀, _, _, _ => by
    refine ⟨[], rfl, fun a b k => ?_⟩
    simp
  | s :: ss, i₀, hmem, hgap, hlen => by
    obtain ⟨W₁, hW₁, hchar₁⟩ :=
      @sentWrites_ok vocab L i₀ s
        (hmem s (by simp)) hgap (hlen s (by simp))
    obtain ⟨W₂, hW₂, hchar₂⟩ :=
      @buildWrites_ok vocab L ss (i₀ + 1)
        (fun x hx => hmem x (by simp [hx])) hgap
        (fun x hx => hlen x (by simp [hx]))
    refine ⟨W₁ ++ W₂, ?_, ?_⟩
    · simp only [buildWrites]
      rw [hW₁, hW₂]
    · intro a b k
      rw [List.mem_append, hchar₁ a b k, hchar₂ a b k]
      constructor
      · rintro (⟨rfl, hc⟩ | ⟨t, ht, rfl, hc⟩)
        · exact ⟨0, by simp, by omega, by simpa using hc⟩
        · refine ⟨t + 1, ?_, by omega, by simpa using hc⟩
          simp only [List.length_cons]
          omega
      · rintro ⟨t, ht, rfl, hc⟩
        cases t with
        | zero => exact Or.inl ⟨by omega, by simpa using hc⟩
        | succ t =>
          right
          refine ⟨t, ?_, by omega, by simpa using hc⟩
          simp only [List.length_cons] at ht
          omega

@[simp] lemma isOk_ok {ε α : Type} (a : α) : (Except.ok a : Except ε α).isOk = true := rfl

@[simp] lemma isOk_error {ε α : Type} (e : ε) : (Except.error e : Except ε α).isOk = false := rfl

lemma word2idx_some_mem {vocab : List String} {w : String} {k : Nat}
    (h : word2idx vocab w = some k) : w ∈ vocab := by
  by_contra hc
  rw [word2idx_none hc] at h
  exact absurd h (by simp)

lemma tokenWrites_isOk_iff {vocab : List String} {L i : Nat} :
    ∀ (sent : List String) (j₀ : Nat),
      (tokenWrites vocab L i sent j₀).isOk = true ↔
        ((∀ w ∈ sent, w ∈ vocab) ∧ (sent = [] ∨ j₀ + sent.length ≤ L))
  | [], j₀ => by simp [tokenWrites]
  | w :: ws, j₀ => by
    rcases hw : word2idx vocab w with _ | k
    · have hwv : w ∉ vocab := word2idx_none_iff.mp hw
      simp only [tokenWrites, hw]
      refine iff_of_false (by simp) ?_
      rintro ⟨hmem, -⟩
      exact hwv (hmem w (by simp))
    · have hws := @tokenWrites_isOk_iff vocab L i ws (j₀ + 1)
      by_cases hj : j₀ < L
      · rcases hr : tokenWrites vocab L i ws (j₀ + 1) with e | W
        · simp only [tokenWrites, hw, if_pos hj, hr]
          refine iff_of_false (by simp) ?_
          rintro ⟨hmem, hfit⟩
          have hfit' : ws = [] ∨ j₀ + 1 + ws.length ≤ L := by
            rcases hfit with h | h
            · exact absurd h (by simp)
            · simp only [List.length_cons] at h
              right
              omega
          have := hws.mpr ⟨fun x hx => hmem x (by simp [hx]), hfit'⟩
          rw [hr] at this
          exact absurd this (by simp)
        · have hws' := hws.mp (by rw [hr]; rfl)
          simp only [tokenWrites, hw, if_pos hj, hr]
          refine iff_of_true (by simp) ⟨fun x hx => ?_, Or.inr ?_⟩
          · rcases List.mem_cons.mp hx with rfl | hx
            · exact word2idx_some_mem hw
            · exact hws'.1 x hx
          · rcases hws'.2 with rfl | hfit
            · simp
              omega
            · simp only [List.length_cons]
              omega
      · simp only [tokenWrites, hw, if_neg hj]
        refine iff_of_false (by simp) ?_
        rintro ⟨-, hfit⟩
        rcases hfit with h | h
        · exact absurd h (by simp)
        · exact absurd (show j₀ < L by
            simp only [List.length_cons] at h; omega) hj

lemma sentWrites_isOk_iff {vocab : List String} {L i : Nat} {sent : List String} :
    (sentWrites vocab L i sent).isOk = true ↔
      ((∀ w ∈ sent, w ∈ vocab) ∧ (sent = [] ∨ sent.length ≤ L) ∧ "GAP" ∈ vocab) := by
  have htok := @tokenWrites_isOk_iff vocab L i sent 0
  rcases ht : tokenWrites vocab L i sent 0 with e | W
  · simp only [sentWrites, ht]
    refine iff_of_false (by simp) ?_
    rintro ⟨hmem, hfit, -⟩
    have hfit' : sent = [] ∨ 0 + sent.length ≤ L := by
      rcases hfit with h | h
      · exact Or.inl h
      · right
        omega
    have := htok.mpr ⟨hmem, hfit'⟩
    rw [ht] at this
    exact absurd this (by simp)
  · have htok' := htok.mp (by rw [ht]; rfl)
    rcases hg : word2idx vocab "GAP" with _ | g
    · simp only [sentWrites, ht, hg]
      refine iff_of_false (by simp) ?_
      rintro ⟨-, -, hgap⟩
      exact absurd (word2idx_none_iff.mp hg) (by simp [hgap])
    · simp only [sentWrites, ht, hg]
      refine iff_of_true (by simp) ⟨htok'.1, ?_, word2idx_some_mem hg⟩
      rcases htok'.2 with h | h
      · exact Or.inl h
      · right
        omega

lemma buildWrites_isOk_iff {vocab : List String} {L : Nat} :
    ∀ (ss : List (List String)) (i₀ : Nat),
      (buildWrites vocab L ss i₀).isOk = true ↔
        ∀ s ∈ ss, ((∀ w ∈ s, w ∈ vocab) ∧ (s = [] ∨ s.length ≤ L) ∧ "GAP" ∈ vocab)
  | [], i₀ => by simp [buildWrites]
  | s :: ss, i₀ => by
    rcases hs : sentWrites vocab L i₀ s with e | W₁
    · simp only [buildWrites, hs]
      refine iff_of_false (by simp) ?_
      intro h
      have : (sentWrites vocab L i₀ s).isOk = true :=
        sentWrites_isOk_iff.mpr (h s (by simp))
      rw [hs] at this
      exact absurd this (by simp)
    · have h₁ := @sentWrites_isOk_iff vocab L i₀ s |>.mp (by rw [hs]; rfl)
      have hbs := @buildWrites_isOk_iff vocab L ss (i₀ + 1)
      rcases hr : buildWrites vocab L ss (i₀ + 1) with e | W₂
      · simp only [buildWrites, hs, hr]
        refine iff_of_false (by simp) ?_
        intro h
        have := hbs.mpr (fun x hx => h x (by simp [hx]))
        rw [hr] at this
        exact absurd this (by simp)
      · have h₂ := hbs.mp (by rw [hr]; rfl)
        simp only [buildWrites, hs, hr]
        refine iff_of_true (by simp) ?_
        intro x hx
        rcases List.mem_cons.mp hx with rfl | hx
        · exact h₁
        · exact h₂ x hx

lemma tokenWrites_err_key {vocab : List String} {L i : Nat} :
    ∀ (sent : List String) (j₀ : Nat) {w₀ : String},
      j₀ + sent.length ≤ L →
      sent.find? (fun w => !vocab.contains w) = some w₀ →
      tokenWrites vocab L i sent j₀ = .error (.keyError w₀)
  | [], j₀, w₀, _, hfind => by simp at hfind
  | w :: ws, j₀, w₀, hfit, hfind => by
    rw [List.find?_cons] at hfind
    rcases hc : (!vocab.contains w) with _ | _
    · rw [hc] at hfind
      have hwv : w ∈ vocab := by
        simp at hc
        simpa using hc
      obtain ⟨k, hk⟩ := word2idx_isSome hwv
      have hrec := @tokenWrites_err_key vocab L i ws (j₀ + 1) _
        (show j₀ + 1 + ws.length ≤ L by simp at hfit; omega) hfind
      simp only [tokenWrites, hk, hrec]
      rw [if_pos (show j₀ < L by simp at hfit; omega)]
    · rw [hc] at hfind
      have hw₀ : w = w₀ := by simpa using hfind
      have hwv : w ∉ vocab := by
        simp at hc
        simpa using hc
      subst hw₀
      simp only [tokenWrites, word2idx_none hwv]

lemma tokenWrites_err_idx {vocab : List String} {L i : Nat} :
    ∀ (sent : List String) (j₀ : Nat),
      (∀ w ∈ sent, w ∈ vocab) → j₀ ≤ L → L < j₀ + sent.length →
      tokenWrites vocab L i sent j₀ = .error (.indexError L)
  | [], j₀, _, hle, hlong => by
    simp at hlong
    omega
  | w :: ws, j₀, hmem, hle, hlong => by
    obtain ⟨k, hk⟩ := word2idx_isSome (hmem w (by simp))
    by_cases hj : j₀ < L
    · have hrec := @tokenWrites_err_idx vocab L i ws (j₀ + 1) (fun x hx => hmem x (by simp [hx])) (by omega)
        (by simp at hlong; omega)
      simp only [tokenWrites, hk, if_pos hj, hrec]
    · have hjL : j₀ = L := by omega
      subst hjL
      simp only [tokenWrites, hk, if_neg hj]

lemma buildWrites_err_key {vocab : List String} {L : Nat} :
    ∀ (ss : List (List String)) (i₀ : Nat) {w₀ : String},
      "GAP" ∈ vocab → (∀ s ∈ ss, s.length ≤ L) →
      (ss.flatMap id).find? (fun w => !vocab.contains w) = some w₀ →
      buildWrites vocab L ss i₀ = .error (.keyError w₀)
  | [], i₀, w₀, _, _, hfind => by simp at hfind
  | s :: ss, i₀, w₀, hgap, hlen, hfind => by
    rw [List.flatMap_cons, List.find?_append] at hfind
    simp only [id_eq] at hfind
    rcases hf : s.find? (fun w => !vocab.contains w) with _ | w₁
    · rw [hf] at hfind
      simp only [Option.none_or] at hfind
      have hsmem : ∀ w ∈ s, w ∈ vocab := by
        intro x hx
        have := List.find?_eq_none.mp hf x hx
        simpa using this
      obtain ⟨W₁, hW₁, -⟩ := @sentWrites_ok vocab L i₀ s
        hsmem hgap (hlen s (by simp))
      have hrec := @buildWrites_err_key vocab L ss (i₀ + 1) _
        hgap (fun x hx => hlen x (by simp [hx])) (by simpa using hfind)
      simp only [buildWrites, hW₁, hrec]
    · rw [hf] at hfind
      have hw₁ : w₁ = w₀ := by simpa using hfind
      subst hw₁
      have herr := @tokenWrites_err_key vocab L i₀ s 0 _ (by have := hlen s (by simp); omega) hf
      simp only [buildWrites, sentWrites, herr]

lemma buildWrites_err_idx {vocab : List String} {L : Nat} :
    ∀ (ss : List (List String)) (i₀ : Nat),
      "GAP" ∈ vocab → (∀ s ∈ ss, ∀ w ∈ s, w ∈ vocab) →
      (∃ s ∈ ss, L < s.length) →
      buildWrites vocab L ss i₀ = .error (.indexError L)
  | [], i₀, _, _, hlong => by simp at hlong
  | s :: ss, i₀, hgap, hmem, hlong => by
    by_cases hs : L < s.length
    · have herr := @tokenWrites_err_idx vocab L i₀ s 0 (hmem s (by simp)) (by omega) (by omega)
      simp only [buildWrites, sentWrites, herr]
    · obtain ⟨W₁, hW₁, -⟩ := @sentWrites_ok vocab L i₀ s
        (hmem s (by simp)) hgap (by omega)
      have hlong' : ∃ x ∈ ss, L < x.length := by
        rcases hlong with ⟨x, hx, hlx⟩
        rcases List.mem_cons.mp hx with rfl | hx
        · exact absurd hlx hs
        · exact ⟨x, hx, hlx⟩
      have hrec := @buildWrites_err_idx vocab L ss (i₀ + 1)
        hgap (fun x hx => hmem x (by simp [hx])) hlong'
      simp only [buildWrites, hW₁, hrec]

/-- C1: for a corpus whose tokens all appear in the vocabulary (which
contains `GAP`) and whose sentences all have length at most `L`, the
constructor succeeds and every row `(i, j)` of the tensor has exactly one
vocabulary index `k₀` holding 1 — the index of the token at position `j`
of sentence `i` when `j < length(i)`, the index of `GAP` when
`j ≥ length(i)` — and all other entries of the row are 0. -/
theorem spec_C1_onehot_row_invariant (vocab : List String)
    (sentences : List (List String)) (L i j : Nat)
    (hgap : "GAP" ∈ vocab)
    (htok : ∀ s ∈ sentences, ∀ w ∈ s, w ∈ vocab)
    (hlen : ∀ s ∈ sentences, s.length ≤ L)
    (hi : i < sentences.length) (hj : j < L) :
    ∃ W, buildWrites vocab L sentences 0 = .ok W ∧
      ∃ k₀, ((j < (sentences.getD i []).length ∧
              word2idx vocab ((sentences.getD i []).getD j "") = some k₀) ∨
             ((sentences.getD i []).length ≤ j ∧
              word2idx vocab "GAP" = some k₀)) ∧
        tensorOf W i j k₀ = 1 ∧ ∀ k, k ≠ k₀ → tensorOf W i j k = 0 := by
  obtain ⟨W, hW, hchar⟩ := buildWrites_ok sentences 0 htok hgap hlen
  refine ⟨W, hW, ?_⟩
  have hsmem : sentences.getD i [] ∈ sentences := by
    rw [List.getD_eq_getElem _ _ hi]
    exact List.getElem_mem hi
  have main : ∀ k₀, cellSpec vocab L (sentences.getD i []) j k₀ →
      tensorOf W i j k₀ = 1 ∧ ∀ k, k ≠ k₀ → tensorOf W i j k = 0 := by
    intro k₀ hspec
    constructor
    · rw [tensorOf, if_pos]
      exact (hchar i j k₀).mpr ⟨i, hi, by omega, hspec⟩
    · intro k hk
      rw [tensorOf, if_neg]
      intro hmemW
      obtain ⟨t, ht, hit, hcs⟩ := (hchar i j k).mp hmemW
      have hti : t = i := by omega
      subst hti
      rw [cellSpec] at hspec hcs
      rcases hspec with ⟨h1, h2⟩ | ⟨h1, h2, h3⟩ <;>
        rcases hcs with ⟨h1', h2'⟩ | ⟨h1', h2', h3'⟩
      · rw [h2] at h2'
        exact hk (Option.some.inj h2').symm
      · omega
      · omega
      · rw [h3] at h3'
        exact hk (Option.some.inj h3').symm
  by_cases hcase : j < (sentences.getD i []).length
  · have htmem : (sentences.getD i []).getD j "" ∈ sentences.getD i [] := by
      rw [List.getD_eq_getElem _ _ hcase]
      exact List.getElem_mem hcase
    obtain ⟨k₀, hk₀⟩ := word2idx_isSome (htok _ hsmem _ htmem)
    exact ⟨k₀, Or.inl ⟨hcase, hk₀⟩, main k₀ (by rw [cellSpec]; exact Or.inl ⟨hcase, hk₀⟩)⟩
  · obtain ⟨k₀, hk₀⟩ := word2idx_isSome hgap
    exact ⟨k₀, Or.inr ⟨by omega, hk₀⟩,
      main k₀ (by rw [cellSpec]; exact Or.inr ⟨by omega, hj, hk₀⟩)⟩

/-- Witness for C1 at the corpus `[["a"]]` with vocabulary
`["GAP", "a"]`, `L = 2`, row `(0, 1)` (a padding position). -/
theorem spec_C1_witness :
    ∃ W, buildWrites ["GAP", "a"] 2 [["a"]] 0 = .ok W ∧
      ∃ k₀, ((1 < (([["a"]] : List (List String)).getD 0 []).length ∧
              word2idx ["GAP", "a"]
                ((([["a"]] : List (List String)).getD 0 []).getD 1 "") = some k₀) ∨
             ((([["a"]] : List (List String)).getD 0 []).length ≤ 1 ∧
              word2idx ["GAP", "a"] "GAP" = some k₀)) ∧
        tensorOf W 0 1 k₀ = 1 ∧ ∀ k, k ≠ k₀ → tensorOf W 0 1 k = 0 :=
  spec_C1_onehot_row_invariant ["GAP", "a"] [["a"]] 2 0 1 (by decide)
    (by decide) (by decide) (by decide) (by decide)

/-- C5: a token absent from the vocabulary makes the constructor fail
(`isOk = false`: no tensor is produced, nothing is mapped to `GAP` or
skipped), and — in the normal regime where `GAP` is present and no
sentence is overlong — the failure is precisely the `KeyError` at the
first missing token. -/
theorem spec_C5_missing_token_fails_fast (vocab : List String)
    (sentences : List (List String)) (L : Nat) (w₀ : String)
    (hfind : (sentences.flatMap id).find? (fun w => !vocab.contains w) = some w₀) :
    (buildWrites vocab L sentences 0).isOk = false ∧
      ("GAP" ∈ vocab → (∀ s ∈ sentences, s.length ≤ L) →
        buildWrites vocab L sentences 0 = .error (.keyError w₀)) := by
  constructor
  · have hw₀mem : w₀ ∈ sentences.flatMap id := List.mem_of_find?_eq_some hfind
    have hw₀n : w₀ ∉ vocab := by
      have := List.find?_some hfind
      simpa using this
    obtain ⟨s, hs, hws⟩ := List.mem_flatMap.mp hw₀mem
    cases hB : (buildWrites vocab L sentences 0).isOk with
    | false => rfl
    | true =>
      exfalso
      have hall := (buildWrites_isOk_iff sentences 0).mp hB
      exact hw₀n ((hall s hs).1 w₀ (by simpa using hws))
  · intro hgap hlen
    exact buildWrites_err_key sentences 0 hgap hlen hfind

/-- Witness for C5: sentence `["a", "b"]` with `"b"` missing from the
vocabulary `["GAP", "a"]`. -/
theorem spec_C5_witness :
    (buildWrites ["GAP", "a"] 2 [["a", "b"]] 0).isOk = false ∧
      ("GAP" ∈ ["GAP", "a"] → (∀ s ∈ [["a", "b"]], s.length ≤ 2) →
        buildWrites ["GAP", "a"] 2 [["a", "b"]] 0 = .error (.keyError "b")) :=
  spec_C5_missing_token_fails_fast ["GAP", "a"] [["a", "b"]] 2 "b" (by decide)

/-- C10: a sentence longer than `L` makes the constructor fail
(`isOk = false`: the sentence is never truncated and no tensor is
returned), and — when every token is in the vocabulary and `GAP` is
present — the failure is precisely the `IndexError` raised while writing
position `L`. -/
theorem spec_C10_overlong_sentence_fails (vocab : List String)
    (sentences : List (List String)) (L : Nat)
    (hlong : ∃ s ∈ sentences, L < s.length) :
    (buildWrites vocab L sentences 0).isOk = false ∧
      ((∀ s ∈ sentences, ∀ w ∈ s, w ∈ vocab) → "GAP" ∈ vocab →
        buildWrites vocab L sentences 0 = .error (.indexError L)) := by
  obtain ⟨s, hs, hsl⟩ := hlong
  constructor
  · cases hB : (buildWrites vocab L sentences 0).isOk with
    | false => rfl
    | true =>
      exfalso
      have hall := (buildWrites_isOk_iff sentences 0).mp hB
      rcases (hall s hs).2.1 with rfl | hle
      · simp at hsl
      · omega
  · intro htok hgap
    exact buildWrites_err_idx sentences 0 hgap htok ⟨s, hs, hsl⟩

/-- Witness for C10: the three-token sentence `["a", "a", "a"]` with
`L = 2`. -/
theorem spec_C10_witness :
    (buildWrites ["GAP", "a"] 2 [["a", "a", "a"]] 0).isOk = false ∧
      ((∀ s ∈ [["a", "a", "a"]], ∀ w ∈ s, w ∈ ["GAP", "a"]) →
        "GAP" ∈ ["GAP", "a"] →
        buildWrites ["GAP", "a"] 2 [["a", "a", "a"]] 0 = .error (.indexError 2)) :=
  spec_C10_overlong_sentence_fails ["GAP", "a"] [["a", "a", "a"]] 2 (by decide)

lemma processSent_eq_some_iff {tag : List String → List (String × String)}
    {mn mx : Nat} {s : List String} {c : List String} :
    processSent tag mn mx s = some c ↔
      ((∀ t ∈ s, t ≠ "CHAPTER") ∧ chapterHeading s = false ∧
       c = normalizeTagged (tag s) ∧ mn ≤ c.length ∧ c.length ≤ mx) := by
  by_cases h1 : (s.any (fun t => t == "CHAPTER")) = true
  · have hps : processSent tag mn mx s = none := by
      unfold processSent
      rw [if_pos h1]
    rw [hps]
    refine iff_of_false (by simp) ?_
    rintro ⟨hno, -⟩
    obtain ⟨t, ht, htc⟩ : ∃ t ∈ s, t = "CHAPTER" := by simpa using h1
    exact hno t ht htc
  · by_cases h2 : chapterHeading s = true
    · have hps : processSent tag mn mx s = none := by
        unfold processSent
        rw [if_neg h1, if_pos h2]
      rw [hps]
      refine iff_of_false (by simp) ?_
      rintro ⟨-, hch, -⟩
      rw [h2] at hch
      exact absurd hch (by simp)
    · have h2' : chapterHeading s = false := by
        cases h : chapterHeading s
        · rfl
        · exact absurd h h2
      by_cases h3 : mn ≤ (normalizeTagged (tag s)).length ∧
          (normalizeTagged (tag s)).length ≤ mx
      · have hps : processSent tag mn mx s = some (normalizeTagged (tag s)) := by
          unfold processSent
          rw [if_neg h1, if_neg h2, if_pos h3]
        rw [hps]
        constructor
        · intro h
          have hc := (Option.some.inj h).symm
          refine ⟨?_, h2', hc, ?_, ?_⟩
          · intro t ht htc
            refine h1 ?_
            simp only [List.any_eq_true]
            exact ⟨t, ht, by simp [htc]⟩
          · rw [hc]
            exact h3.1
          · rw [hc]
            exact h3.2
        · rintro ⟨-, -, rfl, -, -⟩
          rfl
      · have hps : processSent tag mn mx s = none := by
          unfold processSent
          rw [if_neg h1, if_neg h2, if_neg h3]
        rw [hps]
        refine iff_of_false (by simp) ?_
        rintro ⟨-, -, rfl, hb1, hb2⟩
        exact h3 ⟨hb1, hb2⟩

lemma mem_clean_sents_iff {tag : List String → List (String × String)}
    {sentences : List (List String)} {mn mx : Nat} {c : List String} :
    c ∈ clean_sents tag sentences mn mx ↔
      ∃ s ∈ sentences, (mn ≤ s.length ∧ s.length ≤ mx + 1) ∧
        processSent tag mn mx s = some c := by
  unfold clean_sents
  rw [List.mem_filterMap]
  constructor
  · rintro ⟨s, hs, hps⟩
    rw [List.mem_filter] at hs
    exact ⟨s, hs.1, by simpa using hs.2, hps⟩
  · rintro ⟨s, hs, hb, hps⟩
    exact ⟨s, List.mem_filter.mpr ⟨hs, by simpa using hb⟩, hps⟩

/-- C2: every cleaned sentence has length in `[mn, mx]`; the pre-filter
admits exactly the raw sentences of length in `[mn, mx + 1]`; and a kept
sentence is the entire normalized token sequence (never a truncation),
included exactly when its cleaned length lies in `[mn, mx]`. -/
theorem spec_C2_cleaner_length_contract
    (tag : List String → List (String × String))
    (sentences : List (List String)) (mn mx : Nat) (_hmn : mn ≤ mx) :
    (∀ out ∈ clean_sents tag sentences mn mx,
      mn ≤ out.length ∧ out.length ≤ mx) ∧
    (∀ s ∈ sentences,
      (s ∈ sentences.filter (fun s => decide (mn ≤ s.length ∧ s.length ≤ mx + 1)) ↔
        (mn ≤ s.length ∧ s.length ≤ mx + 1))) ∧
    (∀ s c, processSent tag mn mx s = some c →
      (c = normalizeTagged (tag s) ∧ mn ≤ c.length ∧ c.length ≤ mx)) := by
  refine ⟨?_, ?_, ?_⟩
  · intro out hout
    obtain ⟨s, -, -, hps⟩ := mem_clean_sents_iff.mp hout
    obtain ⟨-, -, -, hb1, hb2⟩ := processSent_eq_some_iff.mp hps
    exact ⟨hb1, hb2⟩
  · intro s hs
    rw [List.mem_filter]
    constructor
    · rintro ⟨-, hb⟩
      simpa using hb
    · intro hb
      exact ⟨hs, by simpa using hb⟩
  · intro s c hps
    obtain ⟨-, -, hc, hb1, hb2⟩ := processSent_eq_some_iff.mp hps
    exact ⟨hc, hb1, hb2⟩

/-- Witness for C2 at a concrete corpus and bounds `[1, 3]`. -/
theorem spec_C2_witness :
    (∀ out ∈ clean_sents tagNN [["big", "cat"]] 1 3,
      1 ≤ out.length ∧ out.length ≤ 3) ∧
    (∀ s ∈ [["big", "cat"]],
      (s ∈ [["big", "cat"]].filter
          (fun s => decide (1 ≤ s.length ∧ s.length ≤ 3 + 1)) ↔
        (1 ≤ s.length ∧ s.length ≤ 3 + 1))) ∧
    (∀ s c, processSent tagNN 1 3 s = some c →
      (c = normalizeTagged (tagNN s) ∧ 1 ≤ c.length ∧ c.length ≤ 3)) :=
  spec_C2_cleaner_length_contract tagNN [["big", "cat"]] 1 3 (by decide)

/-- Counterexample for C6: with minimum length 2 and maximum length 1
the cleaner does not reject the malformed bounds — it proceeds and
returns an (empty) output corpus.  (The code performs no bounds check
at all; the embedding is accordingly a total function.) -/
theorem spec_C6_counterexample :
    clean_sents tagNN [["ab", "cd"]] 2 1 = [] := by decide

/-- C6 (amended): when `mn > mx` the cleaner silently returns the empty
corpus — the post-filter `mn ≤ len ≤ mx` can never hold — instead of
rejecting the bounds with an error. -/
theorem spec_C6_amended_malformed_bounds_empty
    (tag : List String → List (String × String))
    (sentences : List (List String)) (mn mx : Nat) (h : mx < mn) :
    clean_sents tag sentences mn mx = [] := by
  rcases hcs : clean_sents tag sentences mn mx with _ | ⟨c, rest⟩
  · rfl
  · exfalso
    have hc : c ∈ clean_sents tag sentences mn mx := by
      rw [hcs]
      simp
    obtain ⟨s, -, -, hps⟩ := mem_clean_sents_iff.mp hc
    obtain ⟨-, -, -, hb1, hb2⟩ := processSent_eq_some_iff.mp hps
    omega

/-- Witness for the amended C6 with bounds `[2, 1]`. -/
theorem spec_C6_witness :
    clean_sents tagNN [["ab"]] 2 1 = [] :=
  spec_C6_amended_malformed_bounds_empty tagNN [["ab"]] 2 1 (by decide)

lemma chapterHeading_eq_true_iff {sent : List String} :
    chapterHeading sent = true ↔
      ("chapter" ∈ sent.map strLower ∧
       List.indexOf "chapter" (sent.map strLower) + 1 < sent.length ∧
       (isdigitStr (sent.getD (List.indexOf "chapter" (sent.map strLower) + 1) "") = true ∨
        is_roman (sent.getD (List.indexOf "chapter" (sent.map strLower) + 1) "") = true)) := by
  unfold chapterHeading
  by_cases h1 : (sent.map strLower).contains "chapter" = true
  · rw [if_pos h1]
    have h1' : "chapter" ∈ sent.map strLower := by simpa using h1
    by_cases h2 : List.indexOf "chapter" (sent.map strLower) + 1 < sent.length
    · rw [if_pos h2]
      simp only [Bool.or_eq_true]
      constructor
      · intro h
        exact ⟨h1', h2, h⟩
      · rintro ⟨-, -, h⟩
        exact h
    · rw [if_neg h2]
      refine iff_of_false (by simp) ?_
      rintro ⟨-, hb, -⟩
      exact h2 hb
  · rw [if_neg h1]
    refine iff_of_false (by simp) ?_
    rintro ⟨hm, -⟩
    exact h1 (by simpa using hm)

/-- Counterexample for C3: the sentence `["chapter", "i"]`.  The claim's
condition does not hold (the token after `chapter` is a single-character
Roman numeral, excluded by the claim's length-greater-than-1 proviso),
yet the code's chapter test fires — `is_roman` is called with no length
restriction there — and the cleaner discards the sentence. -/
theorem spec_C3_counterexample :
    claimChapterReject ["chapter", "i"] = false ∧
    chapterHeading ["chapter", "i"] = true ∧
    processSent tagNN 1 5 ["chapter", "i"] = none ∧
    processSent tagNN 1 5 ["chapters", "i"] = some ["chapters", "i"] := by
  refine ⟨by decide, by decide, ?_, ?_⟩
  · unfold processSent
    rw [if_neg (by decide), if_pos (by decide)]
  · unfold processSent
    rw [if_neg (by decide), if_neg (by decide)]
    rw [if_pos (by decide)]
    decide

/-- C3 (amended): a sentence surviving the pre-filter is discarded
exactly when some token equals the literal `CHAPTER`, or the *first*
token case-insensitively equal to `chapter` is immediately followed by
an all-digit token or a token matching the Roman-numeral grammar (with
no length restriction — single characters count), or the cleaned length
falls outside `[mn, mx]`. -/
theorem spec_C3_amended_chapter_rejection
    (tag : List String → List (String × String)) (mn mx : Nat)
    (sent : List String) :
    processSent tag mn mx sent = none ↔
      ((∃ t ∈ sent, t = "CHAPTER") ∨
       ("chapter" ∈ sent.map strLower ∧
        List.indexOf "chapter" (sent.map strLower) + 1 < sent.length ∧
        (isdigitStr (sent.getD (List.indexOf "chapter" (sent.map strLower) + 1) "") = true ∨
         is_roman (sent.getD (List.indexOf "chapter" (sent.map strLower) + 1) "") = true)) ∨
       ¬(mn ≤ (normalizeTagged (tag sent)).length ∧
         (normalizeTagged (tag sent)).length ≤ mx)) := by
  constructor
  · intro h
    by_contra hc
    have hnc : ¬∃ t ∈ sent, t = "CHAPTER" := fun x => hc (Or.inl x)
    have hnh : ¬(chapterHeading sent = true) :=
      fun x => hc (Or.inr (Or.inl (chapterHeading_eq_true_iff.mp x)))
    have hb : mn ≤ (normalizeTagged (tag sent)).length ∧
        (normalizeTagged (tag sent)).length ≤ mx := by
      by_contra hb
      exact hc (Or.inr (Or.inr hb))
    have hsome : processSent tag mn mx sent = some (normalizeTagged (tag sent)) := by
      refine processSent_eq_some_iff.mpr ⟨?_, ?_, rfl, hb.1, hb.2⟩
      · intro t ht htc
        exact hnc ⟨t, ht, htc⟩
      · cases hch : chapterHeading sent
        · rfl
        · exact absurd hch hnh
    rw [h] at hsome
    exact absurd hsome (by simp)
  · intro h
    rcases hps : processSent tag mn mx sent with _ | c
    · rfl
    · exfalso
      obtain ⟨hnc, hnh, hceq, hb1, hb2⟩ := processSent_eq_some_iff.mp hps
      subst hceq
      rcases h with hch | hhead | hbnd
      · obtain ⟨t, ht, htc⟩ := hch
        exact hnc t ht htc
      · have := chapterHeading_eq_true_iff.mpr hhead
        rw [hnh] at this
        exact absurd this (by simp)
      · exact hbnd ⟨hb1, hb2⟩

lemma lexLe_total : ∀ a b : List Char, lexLe a b = true ∨ lexLe b a = true
  | [], _ => Or.inl rfl
  | _ :: _, [] => Or.inr rfl
  | a :: as, b :: bs => by
    rcases lt_trichotomy a b with h | h | h
    · left
      unfold lexLe
      rw [if_pos h]
    · subst h
      rcases lexLe_total as bs with h' | h'
      · left
        unfold lexLe
        rw [if_neg (lt_irrefl a), if_pos rfl]
        exact h'
      · right
        unfold lexLe
        rw [if_neg (lt_irrefl a), if_pos rfl]
        exact h'
    · right
      unfold lexLe
      rw [if_pos h]

lemma lexLe_trans : ∀ a b c : List Char,
    lexLe a b = true → lexLe b c = true → lexLe a c = true
  | [], _, _ => fun _ _ => rfl
  | _ :: _, [], _ => fun h _ => by
    unfold lexLe at h
    exact absurd h (by simp)
  | _ :: _, _ :: _, [] => fun _ h => by
    unfold lexLe at h
    exact absurd h (by simp)
  | a :: as, b :: bs, c :: cs => fun h1 h2 => by
    by_cases hab : a < b
    · by_cases hbc : b < c
      · unfold lexLe
        rw [if_pos (lt_trans hab hbc)]
      · by_cases hbc' : b = c
        · subst hbc'
          unfold lexLe
          rw [if_pos hab]
        · unfold lexLe at h2
          rw [if_neg hbc, if_neg hbc'] at h2
          exact absurd h2 (by simp)
    · by_cases hab' : a = b
      · subst hab'
        unfold lexLe at h1
        rw [if_neg (lt_irrefl a), if_pos rfl] at h1
        by_cases hbc : a < c
        · unfold lexLe
          rw [if_pos hbc]
        · by_cases hbc' : a = c
          · subst hbc'
            unfold lexLe at h2 ⊢
            rw [if_neg (lt_irrefl a), if_pos rfl] at h2 ⊢
            exact lexLe_trans as bs cs h1 h2
          · unfold lexLe at h2
            rw [if_neg hbc, if_neg hbc'] at h2
            exact absurd h2 (by simp)
      · unfold lexLe at h1
        rw [if_neg hab, if_neg hab'] at h1
        exact absurd h1 (by simp)

/-- Counterexample for C4: the (reachable) cleaned corpus `[["GAP"]]` —
a proper-noun-tagged literal token `GAP` survives cleaning verbatim —
has 1 distinct token, but the vocabulary is `["GAP"]` of size 1, not
1 + 1: the reserved symbol aliases with the real token. -/
theorem spec_C4_counterexample :
    clean_sents tagNNP [["GAP"]] 1 1 = [["GAP"]] ∧
    get_vocabulary [["GAP"]] = ["GAP"] ∧
    ¬((get_vocabulary [["GAP"]]).length =
      (([["GAP"]] : List (List String)).flatMap id).dedup.length + 1) := by
  refine ⟨by decide, by decide, by decide⟩

/-- C4 (amended): the vocabulary is the duplicate-free, lexicographically
sorted list of the corpus tokens together with `GAP`; its size is the
number of distinct tokens plus one exactly when the literal token `GAP`
does not itself occur in the corpus (otherwise the reserved symbol
aliases with it and nothing is added). -/
theorem spec_C4_amended_vocabulary (cleaned : List (List String)) :
    (get_vocabulary cleaned).Nodup ∧
    List.Sorted strle (get_vocabulary cleaned) ∧
    "GAP" ∈ get_vocabulary cleaned ∧
    (∀ t, t ∈ get_vocabulary cleaned ↔ (t = "GAP" ∨ t ∈ cleaned.flatMap id)) ∧
    (get_vocabulary cleaned).length =
      (cleaned.flatMap id).dedup.length +
        (if "GAP" ∈ cleaned.flatMap id then 0 else 1) := by
  letI : IsTotal String strle := ⟨fun a b => lexLe_total a.data b.data⟩
  letI : IsTrans String strle := ⟨fun a b c => lexLe_trans a.data b.data c.data⟩
  have hperm := List.perm_insertionSort strle (("GAP" :: cleaned.flatMap id).dedup)
  refine ⟨?_, ?_, ?_, ?_, ?_⟩
  · exact hperm.nodup_iff.mpr (List.nodup_dedup _)
  · exact List.sorted_insertionSort strle _
  · rw [get_vocabulary, hperm.mem_iff, List.mem_dedup]
    simp
  · intro t
    rw [get_vocabulary, hperm.mem_iff, List.mem_dedup]
    simp
  · rw [get_vocabulary, hperm.length_eq]
    by_cases hg : "GAP" ∈ cleaned.flatMap id
    · rw [List.dedup_cons_of_mem hg, if_pos hg]
      rfl
    · rw [List.dedup_cons_of_not_mem hg, if_neg hg]
      simp [Nat.add_comm]

lemma isPrefixOf_eq_true_iff : ∀ (p r : List Char),
    p.isPrefixOf r = true ↔ ∃ t, p ++ t = r
  | [], r => by simp [List.isPrefixOf]
  | a :: as, [] => by simp [List.isPrefixOf]
  | a :: as, b :: bs => by
    simp only [List.isPrefixOf, Bool.and_eq_true, beq_iff_eq]
    rw [isPrefixOf_eq_true_iff as bs]
    constructor
    · rintro ⟨rfl, t, rfl⟩
      exact ⟨t, rfl⟩
    · rintro ⟨t, h⟩
      injection h with h1 h2
      exact ⟨h1, t, h2⟩

lemma mem_chomp {parts rs : List (List Char)} {r' : List Char} :
    r' ∈ chomp parts rs ↔ ∃ r ∈ rs, ∃ p ∈ parts, p ++ r' = r := by
  unfold chomp
  rw [List.mem_flatMap]
  constructor
  · rintro ⟨r, hr, hmem⟩
    rw [List.mem_filterMap] at hmem
    obtain ⟨p, hp, hpr⟩ := hmem
    split at hpr
    · rename_i hpre
      obtain ⟨t, ht⟩ := (isPrefixOf_eq_true_iff p r).mp hpre
      have hr' : r.drop p.length = r' := Option.some.inj hpr
      refine ⟨r, hr, p, hp, ?_⟩
      rw [← hr', ← ht, List.drop_left]
    · exact absurd hpr (by simp)
  · rintro ⟨r, hr, p, hp, hpr⟩
    refine ⟨r, hr, ?_⟩
    rw [List.mem_filterMap]
    refine ⟨p, hp, ?_⟩
    rw [if_pos ((isPrefixOf_eq_true_iff p r).mpr ⟨r', hpr⟩)]
    rw [← hpr, List.drop_left]

lemma is_roman_iff_decomp {w : String} :
    is_roman w = true ↔
      ∃ m ∈ romanM, ∃ c ∈ romanC, ∃ x ∈ romanX, ∃ i ∈ romanI,
        w.data.map Char.toUpper = m ++ (c ++ (x ++ i)) := by
  unfold is_roman
  have hcont : ∀ l : List (List Char), (l.contains ([] : List Char) = true) ↔
      ([] : List Char) ∈ l := fun l => by simp
  rw [hcont, mem_chomp]
  constructor
  · rintro ⟨r3, hr3, i, hi, hir⟩
    rw [mem_chomp] at hr3
    obtain ⟨r2, hr2, x, hx, hxr⟩ := hr3
    rw [mem_chomp] at hr2
    obtain ⟨r1, hr1, c, hc, hcr⟩ := hr2
    rw [mem_chomp] at hr1
    obtain ⟨r0, hr0, m, hm, hmr⟩ := hr1
    have hr0u : r0 = w.data.map Char.toUpper := by simpa using hr0
    refine ⟨m, hm, c, hc, x, hx, i, hi, ?_⟩
    rw [← hr0u, ← hmr, ← hcr, ← hxr, ← hir]
    simp
  · rintro ⟨m, hm, c, hc, x, hx, i, hi, hu⟩
    refine ⟨i, ?_, i, hi, by simp⟩
    rw [mem_chomp]
    refine ⟨x ++ i, ?_, x, hx, rfl⟩
    rw [mem_chomp]
    refine ⟨c ++ (x ++ i), ?_, c, hc, rfl⟩
    rw [mem_chomp]
    exact ⟨w.data.map Char.toUpper, by simp, m, hm, hu.symm⟩

/-- C8: the Roman-numeral classifier accepts exactly the strings whose
upper-cased character sequence splits into one match of each of the four
regex groups (the anchored full-match semantics of
`^M{0,3}(CM|CD|D?C{0,3})?(XC|XL|L?X{0,3})?(IX|IV|V?I{0,3})?$` under
`re.IGNORECASE`); in particular the empty string is accepted, and any
string containing a character that is not a Roman letter (in either
case) is rejected. -/
theorem spec_C8_is_roman_grammar (w : String) :
    (is_roman w = true ↔
      ∃ m ∈ romanM, ∃ c ∈ romanC, ∃ x ∈ romanX, ∃ i ∈ romanI,
        w.data.map Char.toUpper = m ++ (c ++ (x ++ i))) ∧
    is_roman "" = true ∧
    ((∃ ch ∈ w.data,
        ch.toUpper ∉ (['M', 'D', 'C', 'L', 'X', 'V', 'I'] : List Char)) →
      is_roman w = false) := by
  refine ⟨is_roman_iff_decomp, by decide, ?_⟩
  rintro ⟨ch, hch, hbad⟩
  cases hr : is_roman w with
  | false => rfl
  | true =>
    exfalso
    obtain ⟨m, hm, c, hc, x, hx, i, hi, hu⟩ := is_roman_iff_decomp.mp hr
    have hchu : ch.toUpper ∈ w.data.map Char.toUpper :=
      List.mem_map.mpr ⟨ch, hch, rfl⟩
    rw [hu] at hchu
    have hletters : ∀ p ∈ romanM ++ romanC ++ romanX ++ romanI, ∀ a ∈ p,
        a ∈ (['M', 'D', 'C', 'L', 'X', 'V', 'I'] : List Char) := by decide
    simp only [List.mem_append] at hchu
    rcases hchu with h | h | h | h
    · exact hbad (hletters m (by simp [hm]) _ h)
    · exact hbad (hletters c (by simp [hc]) _ h)
    · exact hbad (hletters x (by simp [hx]) _ h)
    · exact hbad (hletters i (by simp [hi]) _ h)

/-- Witness for C8 at `w = "GAP"`: the letter `A` is not a Roman letter,
so the classifier rejects the token. -/
theorem spec_C8_witness :
    (is_roman "GAP" = true ↔
      ∃ m ∈ romanM, ∃ c ∈ romanC, ∃ x ∈ romanX, ∃ i ∈ romanI,
        ("GAP" : String).data.map Char.toUpper = m ++ (c ++ (x ++ i))) ∧
    is_roman "" = true ∧
    ((∃ ch ∈ ("GAP" : String).data,
        ch.toUpper ∉ (['M', 'D', 'C', 'L', 'X', 'V', 'I'] : List Char)) →
      is_roman "GAP" = false) :=
  spec_C8_is_roman_grammar "GAP"

lemma filterMap_eq_map_of {α β : Type} (f : α → Option β) (g : α → β) :
    ∀ (l : List α), (∀ x ∈ l, f x = some (g x)) → l.filterMap f = l.map g
  | [], _ => rfl
  | a :: l, h => by
    rw [List.filterMap_cons, h a (by simp), List.map_cons,
      filterMap_eq_map_of f g l (fun x hx => h x (by simp [hx]))]

/-- Counterexample for C7: cleaning is not idempotent.  The raw token
`-12` is not all-digit, so it survives the digit filter and is stripped
to `12`; on a second pass `12` *is* all-digit and is dropped, after
which the sentence fails the length post-filter and disappears. -/
theorem spec_C7_counterexample :
    clean_sents tagNN [["-12", "big", "cat"]] 3 3 = [["12", "big", "cat"]] ∧
    clean_sents tagNN (clean_sents tagNN [["-12", "big", "cat"]] 3 3) 3 3 ≠
      clean_sents tagNN [["-12", "big", "cat"]] 3 3 := by
  exact ⟨by decide, by decide⟩

/-- C7 (amended): re-cleaning an already-cleaned corpus with the same
bounds yields the same corpus *provided* the tagger returns the given
tokens unchanged, no cleaned sentence matches the chapter-rejection
patterns, and every cleaned token re-normalizes to itself under its new
tag (in particular none has become an all-digit string or a
multi-character Roman numeral).  Without these provisos idempotence
fails, as the counterexample shows. -/
theorem spec_C7_amended_conditional_idempotence
    (tag : List String → List (String × String))
    (sentences : List (List String)) (mn mx : Nat)
    (h1 : ∀ s ∈ clean_sents tag sentences mn mx, (tag s).map Prod.fst = s)
    (h2 : ∀ s ∈ clean_sents tag sentences mn mx,
      chapterHeading s = false ∧ ∀ t ∈ s, t ≠ "CHAPTER")
    (h3 : ∀ s ∈ clean_sents tag sentences mn mx,
      ∀ p ∈ tag s, normToken p = some p.1) :
    clean_sents tag (clean_sents tag sentences mn mx) mn mx
      = clean_sents tag sentences mn mx := by
  have hbounds : ∀ s ∈ clean_sents tag sentences mn mx,
      mn ≤ s.length ∧ s.length ≤ mx := by
    intro s hs
    obtain ⟨s₀, -, -, hps⟩ := mem_clean_sents_iff.mp hs
    obtain ⟨-, -, -, hb1, hb2⟩ := processSent_eq_some_iff.mp hps
    exact ⟨hb1, hb2⟩
  have hfix : ∀ s ∈ clean_sents tag sentences mn mx,
      processSent tag mn mx s = some s := by
    intro s hs
    have hnorm : normalizeTagged (tag s) = s := by
      rw [normalizeTagged, filterMap_eq_map_of normToken Prod.fst (tag s)
        (h3 s hs), h1 s hs]
    exact processSent_eq_some_iff.mpr
      ⟨(h2 s hs).2, (h2 s hs).1, hnorm.symm, (hbounds s hs).1, (hbounds s hs).2⟩
  rw [clean_sents]
  rw [List.filter_eq_self.mpr (fun s hs => by
    have := hbounds s hs
    simp only [decide_eq_true_eq]
    omega)]
  exact filterMap_eq_map_of (processSent tag mn mx) id _
    (fun s hs => hfix s hs) |>.trans (List.map_id _)

/-- Witness for the amended C7 at a corpus that satisfies all three
provisos. -/
theorem spec_C7_witness :
    clean_sents tagNN (clean_sents tagNN [["big", "cat", "dog"]] 3 3) 3 3
      = clean_sents tagNN [["big", "cat", "dog"]] 3 3 :=
  spec_C7_amended_conditional_idempotence tagNN [["big", "cat", "dog"]] 3 3
    (by decide) (by decide) (by decide)

lemma exists_pos_of_sum_one {V : Nat} {q : Nat → ℝ} (h0 : ∀ k, 0 ≤ q k)
    (hsum : ∑ k ∈ Finset.range V, q k = 1) :
    ∃ k ∈ Finset.range V, 0 < q k := by
  by_contra hc
  push_neg at hc
  have hz : ∑ k ∈ Finset.range V, q k = 0 :=
    Finset.sum_eq_zero (fun k hk => le_antisymm (hc k hk) (h0 k))
  rw [hsum] at hz
  norm_num at hz

lemma entropy_upper_bound {V : Nat} {q : Nat → ℝ} (h0 : ∀ k, 0 ≤ q k)
    (hsum : ∑ k ∈ Finset.range V, q k = 1) :
    -∑ k ∈ Finset.range V, q k * Real.logb 2 (q k + 1e-5) ≤ Real.logb 2 V := by
  have hpos : ∀ k, (0:ℝ) < q k + 1e-5 := fun k => by
    have := h0 k
    norm_num
    linarith
  have hneg : -∑ k ∈ Finset.range V, q k * Real.logb 2 (q k + 1e-5)
      = ∑ k ∈ Finset.range V, q k * Real.logb 2 ((q k + 1e-5)⁻¹) := by
    rw [← Finset.sum_neg_distrib]
    refine Finset.sum_congr rfl (fun k hk => ?_)
    rw [Real.logb_inv]
    ring
  rw [hneg]
  have hlog2 : (0:ℝ) < Real.log 2 := Real.log_pos (by norm_num)
  have hSpos : 0 < ∑ k ∈ Finset.range V, q k * (q k + 1e-5)⁻¹ := by
    obtain ⟨k₀, hk₀, hq₀⟩ := exists_pos_of_sum_one h0 hsum
    refine Finset.sum_pos' (fun k hk =>
      mul_nonneg (h0 k) (le_of_lt (inv_pos.mpr (hpos k)))) ⟨k₀, hk₀, ?_⟩
    exact mul_pos hq₀ (inv_pos.mpr (hpos k₀))
  have hSle : ∑ k ∈ Finset.range V, q k * (q k + 1e-5)⁻¹ ≤ (V : ℝ) := by
    have hle := Finset.sum_le_card_nsmul (Finset.range V)
      (fun k => q k * (q k + 1e-5)⁻¹) 1 (fun k hk => by
        show q k * (q k + 1e-5)⁻¹ ≤ 1
        rw [← div_eq_mul_inv]
        refine (div_le_one (hpos k)).mpr ?_
        norm_num)
    simpa using hle
  have hJ : ∑ k ∈ Finset.range V, q k • Real.log ((q k + 1e-5)⁻¹)
      ≤ Real.log (∑ k ∈ Finset.range V, q k • (q k + 1e-5)⁻¹) :=
    (strictConcaveOn_log_Ioi.concaveOn).le_map_sum
      (fun k _ => h0 k) hsum
      (fun k _ => Set.mem_Ioi.mpr (inv_pos.mpr (hpos k)))
  simp only [smul_eq_mul] at hJ
  have hlogV : Real.log (∑ k ∈ Finset.range V, q k * (q k + 1e-5)⁻¹)
      ≤ Real.log V := Real.log_le_log hSpos hSle
  have hconv : ∑ k ∈ Finset.range V, q k * Real.logb 2 ((q k + 1e-5)⁻¹)
      = (∑ k ∈ Finset.range V, q k * Real.log ((q k + 1e-5)⁻¹)) / Real.log 2 := by
    rw [Finset.sum_div]
    refine Finset.sum_congr rfl (fun k hk => ?_)
    rw [Real.logb]
    ring
  rw [hconv, Real.logb]
  exact (div_le_div_iff_of_pos_right hlog2).mpr (hJ.trans hlogV)

lemma entropy_lower_bound {V : Nat} {q : Nat → ℝ} (h0 : ∀ k, 0 ≤ q k)
    (h1 : ∀ k, q k ≤ 1)
    (hsum : ∑ k ∈ Finset.range V, q k = 1) :
    -Real.logb 2 (1 + 1e-5) ≤
      -∑ k ∈ Finset.range V, q k * Real.logb 2 (q k + 1e-5) := by
  have hpos : ∀ k, (0:ℝ) < q k + 1e-5 := fun k => by
    have := h0 k
    norm_num
    linarith
  have hle : ∑ k ∈ Finset.range V, q k * Real.logb 2 (q k + 1e-5)
      ≤ Real.logb 2 (1 + 1e-5) := by
    calc ∑ k ∈ Finset.range V, q k * Real.logb 2 (q k + 1e-5)
        ≤ ∑ k ∈ Finset.range V, q k * Real.logb 2 (1 + 1e-5) := by
          refine Finset.sum_le_sum (fun k hk => ?_)
          refine mul_le_mul_of_nonneg_left ?_ (h0 k)
          refine (Real.logb_le_logb (by norm_num) (hpos k) (by norm_num)).mpr ?_
          have := h1 k
          linarith
      _ = Real.logb 2 (1 + 1e-5) := by
          rw [← Finset.sum_mul, hsum, one_mul]
  linarith

lemma row_indicator {vocab : List String} {sentences : List (List String)}
    {L : Nat} {W : List (Nat × Nat × Nat)}
    (hgap : "GAP" ∈ vocab) (htok : ∀ s ∈ sentences, ∀ w ∈ s, w ∈ vocab)
    (hlen : ∀ s ∈ sentences, s.length ≤ L)
    (hW : buildWrites vocab L sentences 0 = .ok W)
    {i j : Nat} (hi : i < sentences.length) (hj : j < L) :
    ∃ k₀, k₀ < vocab.length ∧
      ∀ k, tensorOf W i j k = if k = k₀ then 1 else 0 := by
  obtain ⟨W', hW', hchar⟩ := buildWrites_ok sentences 0 htok hgap hlen
  rw [hW] at hW'
  have hWW : W' = W := (Except.ok.inj hW').symm
  rw [hWW] at hchar
  have hsmem : sentences.getD i [] ∈ sentences := by
    rw [List.getD_eq_getElem _ _ hi]
    exact List.getElem_mem hi
  have huniq : ∀ k₀, cellSpec vocab L (sentences.getD i []) j k₀ →
      ∀ k, tensorOf W i j k = if k = k₀ then 1 else 0 := by
    intro k₀ hspec k
    by_cases hk : k = k₀
    · subst hk
      rw [if_pos rfl, tensorOf, if_pos]
      exact (hchar i j k).mpr ⟨i, hi, by omega, hspec⟩
    · rw [if_neg hk, tensorOf, if_neg]
      intro hmemW
      obtain ⟨t, ht, hit, hcs⟩ := (hchar i j k).mp hmemW
      have hti : t = i := by omega
      subst hti
      rw [cellSpec] at hspec hcs
      rcases hspec with ⟨h1, h2⟩ | ⟨h1, h2, h3⟩ <;>
        rcases hcs with ⟨h1', h2'⟩ | ⟨h1', h2', h3'⟩
      · rw [h2] at h2'
        exact hk (Option.some.inj h2').symm
      · omega
      · omega
      · rw [h3] at h3'
        exact hk (Option.some.inj h3').symm
  by_cases hcase : j < (sentences.getD i []).length
  · have htmem : (sentences.getD i []).getD j "" ∈ sentences.getD i [] := by
      rw [List.getD_eq_getElem _ _ hcase]
      exact List.getElem_mem hcase
    obtain ⟨k₀, hk₀⟩ := word2idx_isSome (htok _ hsmem _ htmem)
    exact ⟨k₀, word2idx_lt hk₀,
      huniq k₀ (by rw [cellSpec]; exact Or.inl ⟨hcase, hk₀⟩)⟩
  · obtain ⟨k₀, hk₀⟩ := word2idx_isSome hgap
    exact ⟨k₀, word2idx_lt hk₀,
      huniq k₀ (by rw [cellSpec]; exact Or.inr ⟨by omega, hj, hk₀⟩)⟩

lemma marginal_sum_one {vocab : List String} {sentences : List (List String)}
    {L : Nat} {W : List (Nat × Nat × Nat)}
    (hgap : "GAP" ∈ vocab) (htok : ∀ s ∈ sentences, ∀ w ∈ s, w ∈ vocab)
    (hlen : ∀ s ∈ sentences, s.length ≤ L)
    (hW : buildWrites vocab L sentences 0 = .ok W)
    {j : Nat} (hN : 0 < sentences.length) (hj : j < L) :
    ∑ k ∈ Finset.range vocab.length,
      marginalAt (tensorOf W) sentences.length j k = 1 := by
  have hrow : ∀ i ∈ Finset.range sentences.length,
      ∑ k ∈ Finset.range vocab.length, (tensorOf W i j k : ℚ) = 1 := by
    intro i hi
    obtain ⟨k₀, hk₀V, hind⟩ :=
      row_indicator hgap htok hlen hW (List.mem_range.mp hi) hj
    calc ∑ k ∈ Finset.range vocab.length, (tensorOf W i j k : ℚ)
        = ∑ k ∈ Finset.range vocab.length,
            (if k = k₀ then (1:ℚ) else 0) := by
          refine Finset.sum_congr rfl (fun k hk => ?_)
          rw [hind k]
          split <;> simp
      _ = 1 := by
          rw [Finset.sum_ite_eq' (Finset.range vocab.length) k₀ (fun k => (1:ℚ))]
          rw [if_pos (Finset.mem_range.mpr hk₀V)]
  unfold marginalAt
  rw [← Finset.sum_div, Finset.sum_comm, Finset.sum_congr rfl hrow,
    Finset.sum_const, Finset.card_range, nsmul_eq_mul, mul_one]
  exact div_self (Nat.cast_ne_zero.mpr (by omega))

lemma marginalAt_tensor_nonneg (W : List (Nat × Nat × Nat)) (N j k : Nat) :
    0 ≤ marginalAt (tensorOf W) N j k := by
  unfold marginalAt
  positivity

lemma marginalAt_tensor_le_one (W : List (Nat × Nat × Nat)) {N : Nat}
    (hN : 0 < N) (j k : Nat) : marginalAt (tensorOf W) N j k ≤ 1 := by
  unfold marginalAt
  rw [div_le_one (by positivity)]
  calc ∑ i ∈ Finset.range N, (tensorOf W i j k : ℚ)
      ≤ ∑ i ∈ Finset.range N, (1:ℚ) := by
        refine Finset.sum_le_sum (fun i hi => ?_)
        rw [tensorOf]
        split <;> norm_num
    _ = N := by
        rw [Finset.sum_const, Finset.card_range, nsmul_eq_mul, mul_one]

/-- Counterexample for C9: a position where one word has marginal
probability 1.  There the returned entropy is `-log2(1 + 1e-5) < 0`,
strictly below the claimed lower bound 0: the smoothing constant makes
the summand `p·log2(p + ε)` positive at `p = 1`. -/
theorem spec_C9_counterexample :
    buildWrites ["GAP", "a"] 1 [["a"]] 0 = .ok [(0, 0, 1)] ∧
    entropyAt (fun k => marginalAt (tensorOf [(0, 0, 1)]) 1 0 k) 2 < 0 := by
  refine ⟨rfl, ?_⟩
  have h0 : marginalAt (tensorOf [(0, 0, 1)]) 1 0 0 = 0 := by
    rw [marginalAt, Finset.sum_range_one,
      show tensorOf [(0, 0, 1)] 0 0 0 = 0 from by decide]
    norm_num
  have h1 : marginalAt (tensorOf [(0, 0, 1)]) 1 0 1 = 1 := by
    rw [marginalAt, Finset.sum_range_one,
      show tensorOf [(0, 0, 1)] 0 0 1 = 1 from by decide]
    norm_num
  rw [entropyAt, Finset.sum_range_succ, Finset.sum_range_one]
  simp only [h0, h1]
  norm_num
  exact Real.logb_pos (by norm_num) (by norm_num)

/-- C9 (amended): for every valid position of a successfully built
tensor (nonempty corpus, all tokens and `GAP` in the vocabulary,
lengths at most `L`), the entropy `-Σ p·log2(p + 1e-5)` lies in
`[-log2(1 + 1e-5), log2 V]` — the lower end is slightly below the
claimed 0 because of the smoothing constant — and the returned
dimensionality is exactly 2 raised to that entropy. -/
theorem spec_C9_amended_entropy_bounds (vocab : List String)
    (sentences : List (List String)) (L j : Nat)
    (W : List (Nat × Nat × Nat))
    (hW : buildWrites vocab L sentences 0 = .ok W)
    (hgap : "GAP" ∈ vocab)
    (htok : ∀ s ∈ sentences, ∀ w ∈ s, w ∈ vocab)
    (hlen : ∀ s ∈ sentences, s.length ≤ L)
    (hN : 0 < sentences.length) (hj : j < L) :
    -Real.logb 2 (1 + 1e-5) ≤
      entropyAt (fun k => marginalAt (tensorOf W) sentences.length j k)
        vocab.length ∧
    entropyAt (fun k => marginalAt (tensorOf W) sentences.length j k)
        vocab.length ≤ Real.logb 2 vocab.length ∧
    dimensionalityAt (fun k => marginalAt (tensorOf W) sentences.length j k)
        vocab.length
      = 2 ^ entropyAt (fun k => marginalAt (tensorOf W) sentences.length j k)
          vocab.length := by
  have h0 : ∀ k, (0:ℝ) ≤ ((marginalAt (tensorOf W) sentences.length j k : ℚ) : ℝ) :=
    fun k => by exact_mod_cast marginalAt_tensor_nonneg W sentences.length j k
  have h1 : ∀ k, ((marginalAt (tensorOf W) sentences.length j k : ℚ) : ℝ) ≤ 1 :=
    fun k => by exact_mod_cast marginalAt_tensor_le_one W hN j k
  have hsum : ∑ k ∈ Finset.range vocab.length,
      ((marginalAt (tensorOf W) sentences.length j k : ℚ) : ℝ) = 1 := by
    exact_mod_cast marginal_sum_one hgap htok hlen hW hN hj
  exact ⟨entropy_lower_bound h0 h1 hsum, entropy_upper_bound h0 hsum, rfl⟩

/-- Witness for the amended C9 at the corpus `[["a"]]`, vocabulary
`["GAP", "a"]`, `L = 1`, position 0. -/
theorem spec_C9_witness :
    -Real.logb 2 (1 + 1e-5) ≤
      entropyAt (fun k => marginalAt (tensorOf [(0, 0, 1)]) 1 0 k) 2 ∧
    entropyAt (fun k => marginalAt (tensorOf [(0, 0, 1)]) 1 0 k) 2
      ≤ Real.logb 2 2 ∧
    dimensionalityAt (fun k => marginalAt (tensorOf [(0, 0, 1)]) 1 0 k) 2
      = 2 ^ entropyAt (fun k => marginalAt (tensorOf [(0, 0, 1)]) 1 0 k) 2 :=
  spec_C9_amended_entropy_bounds ["GAP", "a"] [["a"]] 1 0 [(0, 0, 1)] rfl
    (by decide) (by decide) (by decide) (by decide) (by decide)
